import Mathlib

set_option autoImplicit false

/-!
Formal model of the MPEG-DASH MPD codec in `mpd.go`.

Strings are modelled as `List Char`.  All marker substrings handled by the
code are ASCII, so byte-level operations of Go's `strings` package coincide
with character-level operations on this model.
-/

/-- ASCII letter, the character class `[A-Za-z]` of `emptyElementRE` (mpd.go line 18). -/
def isAsciiAlpha (c : Char) : Bool :=
  ('A' ≤ c && c ≤ 'Z') || ('a' ≤ c && c ≤ 'z')

/-- ASCII decimal digit, the digit class accepted by Go `strconv.ParseUint(s, 10, 64)`. -/
def isDigitChar (c : Char) : Bool :=
  '0' ≤ c && c ≤ '9'

/-- White space trimmed by Go `strings.TrimSpace` (the ASCII part of `unicode.IsSpace`;
the encoder output contains only ASCII white space). -/
def isGoSpace (c : Char) : Bool :=
  c == ' ' || c == '\t' || c == '\n' || c == '\x0b' || c == '\x0c' || c == '\r'

/-- Go `strings.Replace(s, old, new, 1)`: replace the first occurrence of `old`
(left-to-right scan); later occurrences are untouched.  Call sites always pass a
nonempty `old`. -/
def replaceFirst (old new : List Char) : List Char → List Char
  | [] => []
  | c :: cs =>
    if old ≠ [] ∧ old <+: (c :: cs) then new ++ (c :: cs).drop old.length
    else c :: replaceFirst old new cs

/-- Structural worker for `replaceAll`: the fuel (always called with at least the
length of the string, which bounds the number of steps) only makes the recursion
structural so that the kernel can evaluate it; it never runs out. -/
def replaceAllAux (old new : List Char) : Nat → List Char → List Char
  | _, [] => []
  | 0, c :: cs => c :: cs
  | fuel + 1, c :: cs =>
    if old ≠ [] ∧ old <+: (c :: cs) then
      new ++ replaceAllAux old new fuel ((c :: cs).drop old.length)
    else c :: replaceAllAux old new fuel cs

/-- Go `strings.Replace(s, old, new, -1)`: replace every occurrence of `old`,
left to right, non-overlapping, continuing after each replacement.  Call sites
always pass a nonempty `old`. -/
def replaceAll (old new : List Char) (s : List Char) : List Char :=
  replaceAllAux old new s.length s

/-- Length of the match of `emptyElementRE` = `></[A-Za-z]+>` (mpd.go line 18) at the
start of `l`: `0` when there is no match here, otherwise the number of characters
matched (`4 +` the length of the letter run). -/
def emptyElemMatchLen (l : List Char) : Nat :=
  if ['>', '<', '/'] <+: l then
    if (l.drop 3).takeWhile isAsciiAlpha ≠ [] ∧
        ((l.drop 3).dropWhile isAsciiAlpha).head? = some '>' then
      ((l.drop 3).takeWhile isAsciiAlpha).length + 4
    else 0
  else 0

/-- Structural worker for `emptyElemReplace`; as with `replaceAllAux` the fuel
only makes the recursion structural and never runs out. -/
def emptyElemReplaceAux : Nat → List Char → List Char
  | _, [] => []
  | 0, c :: cs => c :: cs
  | fuel + 1, c :: cs =>
    if 0 < emptyElemMatchLen (c :: cs) then
      '/' :: '>' :: emptyElemReplaceAux fuel ((c :: cs).drop (emptyElemMatchLen (c :: cs)))
    else c :: emptyElemReplaceAux fuel cs

/-- Go `emptyElementRE.ReplaceAllString(s, "/>")` (mpd.go line 101): scan left to
right; at each position, if `></[A-Za-z]+>` matches, emit `/>` and continue after
the match, otherwise copy one character. -/
def emptyElemReplace (l : List Char) : List Char :=
  emptyElemReplaceAux l.length l

/-- Whether `emptyElementRE` matches anywhere in `l`. -/
def hasEmptyElem : List Char → Bool
  | [] => false
  | c :: cs => (emptyElemMatchLen (c :: cs) != 0) || hasEmptyElem cs

/-- Go `strings.TrimSpace`: drop white space from both ends. -/
def trimSpace (l : List Char) : List Char :=
  ((l.dropWhile isGoSpace).reverse.dropWhile isGoSpace).reverse

/-- The chunks produced by the `x.ReadString('\n')` loop of `MPD.Encode` (mpd.go
lines 98-131): each chunk ends with `'\n'` except possibly the last; the empty
final chunk is not emitted. -/
def linesKeepNl : List Char → List (List Char)
  | [] => []
  | c :: cs =>
    if c == '\n' then ['\n'] :: linesKeepNl cs
    else
      match linesKeepNl cs with
      | [] => [[c]]
      | l :: ls => (c :: l) :: ls

/-- Numeric value of a digit string (most significant first). -/
def digitsToNat (l : List Char) : Nat :=
  l.foldl (fun acc c => acc * 10 + (c.toNat - 48)) 0

/-- Go `strconv.ParseUint(s, 10, 64)` as used by `ConditionalUint.UnmarshalXMLAttr`
(mpd.go line 42): succeeds exactly on a nonempty all-digit string whose value fits
in 64 bits (no sign, no underscores in base 10); on any parse or range error
the Go call returns a non-nil error, modelled as `none`. -/
def parseUint64 (s : List Char) : Option Nat :=
  if s.isEmpty then none
  else if s.all isDigitChar then
    if digitsToNat s < 2 ^ 64 then some (digitsToNat s) else none
  else none

/-- The exact strings Go `strconv.ParseBool` maps to `true`. -/
def goTrueLits : List (List Char) :=
  ["1".toList, "t".toList, "T".toList, "TRUE".toList, "true".toList, "True".toList]

/-- The exact strings Go `strconv.ParseBool` maps to `false`. -/
def goFalseLits : List (List Char) :=
  ["0".toList, "f".toList, "F".toList, "FALSE".toList, "false".toList, "False".toList]

/-- Go `strconv.ParseBool` as used by `ConditionalUint.UnmarshalXMLAttr`
(mpd.go line 48). -/
def parseBool (s : List Char) : Option Bool :=
  if s ∈ goTrueLits then some true
  else if s ∈ goFalseLits then some false
  else none

/-- Go `strconv.FormatUint(u, 10)`. -/
def formatUint (n : Nat) : List Char :=
  Nat.toDigits 10 n

/-- Go `strconv.FormatBool`. -/
def formatBool (b : Bool) : List Char :=
  if b then "true".toList else "false".toList

/-- Type `ConditionalUint` (mpd.go lines 21-24): two nullable fields `u *uint64`, `b *bool`. -/
structure ConditionalUint where
  u : Option Nat
  b : Option Bool
deriving DecidableEq

/-- An XML attribute (`encoding/xml.Attr`): name and raw text value. -/
structure XmlAttr where
  name : List Char
  value : List Char
deriving DecidableEq

/-- The error of `ConditionalUint.UnmarshalXMLAttr` (mpd.go line 54):
`fmt.Errorf("ConditionalUint: can't UnmarshalXMLAttr %#v", attr)` carries the
whole offending attribute, i.e. its name and raw text. -/
structure MalformedUnion where
  attr : XmlAttr
deriving DecidableEq

/-- Method `ConditionalUint.MarshalXMLAttr` (mpd.go lines 27-38): integer variant first,
then boolean variant, else no attribute (`none`). -/
def ConditionalUint.marshalXMLAttr (c : ConditionalUint) (name : List Char) : Option XmlAttr :=
  match c.u with
  | some u => some ⟨name, formatUint u⟩
  | none =>
    match c.b with
    | some b => some ⟨name, formatBool b⟩
    | none => none

/-- Method `ConditionalUint.UnmarshalXMLAttr` (mpd.go lines 41-55): try `ParseUint`
first, then `ParseBool`, then fail; the receiver's other field is left as it was. -/
def ConditionalUint.unmarshalXMLAttr (c : ConditionalUint) (attr : XmlAttr) :
    Except MalformedUnion ConditionalUint :=
  match parseUint64 attr.value with
  | some u => .ok { c with u := some u }
  | none =>
    match parseBool attr.value with
    | some b => .ok { c with b := some b }
    | none => .error ⟨attr⟩

/-- ASCII lower-casing of one character, used only to state case-insensitive
comparison of attribute text in claims about the boolean parse. -/
def asciiLower (c : Char) : Char :=
  if 'A' ≤ c ∧ c ≤ 'Z' then Char.ofNat (c.toNat + 32) else c

/-- Predicate stating that a `ConditionalUint` holds at most one of the two variants. -/
def atMostOneVariant (c : ConditionalUint) : Prop :=
  c.u = none ∨ c.b = none

/-- The body of the per-line rewrite loop of `MPD.Encode` (mpd.go lines 100-124)
applied to one nonempty chunk `s`: the `emptyElementRE` collapse, the four
namespace-injection rules guarded by `strings.Contains`, and the empty-timeline
suppression (an emitted empty string means the line is dropped). -/
def rewriteLine (s0 : List Char) : List Char :=
  let s1 := emptyElemReplace s0
  let s2 :=
    if "<MPD".toList <:+: s1 then
      replaceFirst "mspr".toList "xmlns:mspr".toList
        (replaceFirst "cenc".toList "xmlns:cenc".toList s1)
    else s1
  let s3 :=
    if "<pssh".toList <:+: s2 then
      replaceAll "pssh".toList "cenc:pssh".toList
        (replaceFirst "cenc".toList "xmlns:cenc".toList s2)
    else s2
  let s4 :=
    if "<pro".toList <:+: s3 then
      replaceAll "pro".toList "mspr:pro".toList
        (replaceFirst "mspr".toList "xmlns:mspr".toList s3)
    else s3
  let s5 :=
    if "default_KID".toList <:+: s4 then
      replaceAll "cenc=".toList "xmlns:cenc=".toList
        (replaceAll "default_KID".toList "cenc:default_KID".toList s4)
    else s4
  if trimSpace s5 = "<SegmentTimeline/>".toList then [] else s5

/-- The whole rewrite pass of `MPD.Encode`: split the generic serializer's output
into `ReadString('\n')` chunks, rewrite each, and concatenate what is emitted. -/
def rewriteBody (x : List Char) : List Char :=
  ((linesKeepNl x).map rewriteLine).flatten

/-- The fixed declaration header written by `MPD.Encode` (mpd.go line 96). -/
def xmlHeader : List Char :=
  "<?xml version=\"1.0\" encoding=\"utf-8\"?>".toList

/-- Function `MPD.Encode` (mpd.go lines 85-134) downstream of the generic serializer:
header line, then the rewrite pass over the serializer output `x`, then a
trailing newline. -/
def mpdEncode (x : List Char) : List Char :=
  xmlHeader ++ '\n' :: rewriteBody x ++ ['\n']

/-- A root `MPD` document carrying only the optional `Cenc` marker attribute and
the required `Profiles` attribute, with no children (mpd.go lines 64-79). -/
structure MPDRoot where
  cenc : Option (List Char)
  profiles : List Char
deriving DecidableEq

/-- Modelled from the spec: the Generic Serializer Adapter (spec section 4.2, the Go
`encoding/xml` encoder, not part of this repository) applied to an `MPDRoot`:
attributes in field order (`cenc` before `profiles`), absent optional attributes
omitted, a childless root rendered as `<MPD ...></MPD>` on a single line.
Attribute values are emitted verbatim, which is faithful for values containing
no XML-special characters (`<`, `>`, `"`, `&`). -/
def marshalRoot (d : MPDRoot) : List Char :=
  "<MPD ".toList ++
    (match d.cenc with
     | some cv => "cenc=\"".toList ++ cv ++ "\" ".toList
     | none => []) ++
    "profiles=\"".toList ++ d.profiles ++ "\"></MPD>".toList

/-- The suffix of `l` immediately after the first occurrence of `pat`
(`none` when `pat` does not occur). -/
def afterFirst (pat : List Char) : List Char → Option (List Char)
  | [] => none
  | c :: cs =>
    if pat <+: (c :: cs) then some ((c :: cs).drop pat.length)
    else afterFirst pat cs

/-- Modelled from the spec: the decode direction of the Generic Serializer Adapter
(spec sections 4.2 and 6, Go `encoding/xml.Unmarshal`, not part of this repository)
restricted to the `profiles` attribute of the root element: the raw text between
the quotes after `profiles="`.  Faithful for well-formed input whose attribute
values contain no escapes. -/
def decodeProfiles (x : List Char) : Option (List Char) :=
  (afterFirst "profiles=\"".toList x).map (List.takeWhile (fun c => c != '"'))

/-- Modelled from the spec: the Generic Serializer Adapter's indented output (spec
sections 4.2 and 6: 2-space indentation, one element per line, empty repeated
fields omitted) for a document with one Period, one AdaptationSet, and a
SegmentTemplate whose SegmentTimeline has zero segments. -/
def emptyTimelineAdapterOut : List Char :=
  ("<MPD profiles=\"p\">\n" ++
   "  <Period>\n" ++
   "    <AdaptationSet mimeType=\"video/mp4\">\n" ++
   "      <SegmentTemplate>\n" ++
   "        <SegmentTimeline></SegmentTimeline>\n" ++
   "      </SegmentTemplate>\n" ++
   "    </AdaptationSet>\n" ++
   "  </Period>\n" ++
   "</MPD>").toList

/-! ### The fuelled workers satisfy the intended recurrences -/

theorem replaceAllAux_congr (old new : List Char) :
    ∀ (f g : Nat) (s : List Char), s.length ≤ f → s.length ≤ g →
      replaceAllAux old new f s = replaceAllAux old new g s := by
  intro f
  induction f with
  | zero =>
    intro g s hf _
    have : s = [] := List.length_eq_zero.mp (Nat.le_zero.mp hf)
    subst this
    cases g <;> rfl
  | succ f ih =>
    intro g s hf hg
    rcases s with _ | ⟨c, cs⟩
    · cases g <;> rfl
    · rcases g with _ | g
      · exact absurd hg (by simp)
      · simp only [List.length_cons, Nat.add_le_add_iff_right] at hf hg
        rw [replaceAllAux, replaceAllAux]
        rcases Decidable.em (old ≠ [] ∧ old <+: (c :: cs)) with hc | hc
        · rw [if_pos hc, if_pos hc]
          have hlen : ((c :: cs).drop old.length).length ≤ cs.length := by
            have : 0 < old.length := List.length_pos.mpr hc.1
            simp only [List.length_drop, List.length_cons]
            omega
          rw [ih g _ (Nat.le_trans hlen hf) (Nat.le_trans hlen hg)]
        · rw [if_neg hc, if_neg hc, ih g cs hf hg]

theorem replaceAll_cons (old new : List Char) (c : Char) (cs : List Char) :
    replaceAll old new (c :: cs) =
      if old ≠ [] ∧ old <+: (c :: cs) then
        new ++ replaceAll old new ((c :: cs).drop old.length)
      else c :: replaceAll old new cs := by
  show replaceAllAux old new (cs.length + 1) (c :: cs) = _
  rw [replaceAllAux]
  rcases Decidable.em (old ≠ [] ∧ old <+: (c :: cs)) with hc | hc
  · rw [if_pos hc, if_pos hc,
      replaceAllAux_congr old new cs.length ((c :: cs).drop old.length).length _
        (by have : 0 < old.length := List.length_pos.mpr hc.1
            simp only [List.length_drop, List.length_cons]
            omega)
        (Nat.le_refl _)]
    rfl
  · rw [if_neg hc, if_neg hc, replaceAllAux_congr old new cs.length cs.length cs
      (Nat.le_refl _) (Nat.le_refl _)]
    rfl

theorem emptyElemReplaceAux_congr :
    ∀ (f g : Nat) (s : List Char), s.length ≤ f → s.length ≤ g →
      emptyElemReplaceAux f s = emptyElemReplaceAux g s := by
  intro f
  induction f with
  | zero =>
    intro g s hf _
    have : s = [] := List.length_eq_zero.mp (Nat.le_zero.mp hf)
    subst this
    cases g <;> rfl
  | succ f ih =>
    intro g s hf hg
    rcases s with _ | ⟨c, cs⟩
    · cases g <;> rfl
    · rcases g with _ | g
      · exact absurd hg (by simp)
      · simp only [List.length_cons, Nat.add_le_add_iff_right] at hf hg
        rw [emptyElemReplaceAux, emptyElemReplaceAux]
        rcases Decidable.em (0 < emptyElemMatchLen (c :: cs)) with hc | hc
        · rw [if_pos hc, if_pos hc]
          have hlen : ((c :: cs).drop (emptyElemMatchLen (c :: cs))).length ≤ cs.length := by
            simp only [List.length_drop, List.length_cons]
            omega
          rw [ih g _ (Nat.le_trans hlen hf) (Nat.le_trans hlen hg)]
        · rw [if_neg hc, if_neg hc, ih g cs hf hg]

theorem emptyElemReplace_cons (c : Char) (cs : List Char) :
    emptyElemReplace (c :: cs) =
      if 0 < emptyElemMatchLen (c :: cs) then
        '/' :: '>' :: emptyElemReplace ((c :: cs).drop (emptyElemMatchLen (c :: cs)))
      else c :: emptyElemReplace cs := by
  show emptyElemReplaceAux (cs.length + 1) (c :: cs) = _
  rw [emptyElemReplaceAux]
  rcases Decidable.em (0 < emptyElemMatchLen (c :: cs)) with hc | hc
  · rw [if_pos hc, if_pos hc,
      emptyElemReplaceAux_congr cs.length ((c :: cs).drop (emptyElemMatchLen (c :: cs))).length _
        (by simp only [List.length_drop, List.length_cons]; omega)
        (Nat.le_refl _)]
    rfl
  · rw [if_neg hc, if_neg hc,
      emptyElemReplaceAux_congr cs.length cs.length cs (Nat.le_refl _) (Nat.le_refl _)]
    rfl

/-! ### Occurrence (substring) lemmas -/

theorem sub_append_split {p xs ys : List Char} (h : p <:+: xs ++ ys) :
    p <:+: xs ∨ p <:+: ys ∨
      ∃ s t, p = s ++ t ∧ s ≠ [] ∧ t ≠ [] ∧ s <:+ xs ∧ t <+: ys := by
  obtain ⟨l, r, hlr⟩ := h
  rw [List.append_assoc] at hlr
  rcases List.append_eq_append_iff.mp hlr with ⟨a, hxs, hpr⟩ | ⟨c, _, hys⟩
  · rcases List.append_eq_append_iff.mp hpr with ⟨e, ha, _⟩ | ⟨t, hp, hys⟩
    · exact Or.inl ⟨l, e, by rw [hxs, ha, List.append_assoc]⟩
    · rcases eq_or_ne a [] with rfl | ha0
      · refine Or.inr (Or.inl ?_)
        simp only [List.nil_append] at hp
        exact (show p <+: ys from ⟨r, by rw [hys, hp]⟩).isInfix
      · rcases eq_or_ne t [] with rfl | ht0
        · rw [List.append_nil] at hp
          rw [hp]
          exact Or.inl (show a <:+ xs from ⟨l, hxs.symm⟩).isInfix
        · exact Or.inr (Or.inr ⟨a, t, hp, ha0, ht0, ⟨l, hxs.symm⟩, ⟨r, hys.symm⟩⟩)
  · refine Or.inr (Or.inl ?_)
    exact ⟨c, r, by rw [List.append_assoc, hys]⟩

theorem not_sub_of_missing_char {p s : List Char} {c : Char} (hc : c ∈ p) (hs : c ∉ s) :
    ¬ p <:+: s :=
  fun h => hs (h.subset hc)

theorem mem_of_suffix_getLast {s a : List Char} {q : Char} (hs : s <:+ a) (h0 : s ≠ [])
    (ha : a.getLast? = some q) : q ∈ s := by
  obtain ⟨w, rfl⟩ := hs
  rw [List.getLast?_append] at ha
  rcases hg : s.getLast? with _ | x
  · exact absurd (List.getLast?_eq_none_iff.mp hg) h0
  · rw [hg, Option.or_some] at ha
    cases ha
    exact List.mem_of_getLast?_eq_some hg

theorem mem_of_prefix_head {t b : List Char} {q : Char} (ht : t <+: b) (h0 : t ≠ [])
    (hb : b.head? = some q) : q ∈ t := by
  obtain ⟨w, rfl⟩ := ht
  rcases t with _ | ⟨c, cs⟩
  · exact absurd rfl h0
  · simp only [List.cons_append, List.head?_cons, Option.some.injEq] at hb
    rw [← hb]
    exact List.mem_cons_self c cs

/-- A pattern that contains the barrier character `q` nowhere cannot occur in
`a ++ (v ++ b)` when `a` ends with `q`, `b` starts with `q`, and the pattern
occurs in none of the three parts. -/
theorem not_sub_barrier {p a v b : List Char} {q : Char} (hq : q ∉ p)
    (ha2 : a.getLast? = some q) (hb2 : b.head? = some q)
    (hpa : ¬ p <:+: a) (hpv : ¬ p <:+: v) (hpb : ¬ p <:+: b) :
    ¬ p <:+: a ++ (v ++ b) := by
  intro h
  rcases sub_append_split h with h1 | h1 | ⟨s, t, hp, hs0, _, hsuf, _⟩
  · exact hpa h1
  · rcases sub_append_split h1 with h2 | h2 | ⟨s, t, hp, _, ht0, _, hpre⟩
    · exact hpv h2
    · exact hpb h2
    · exact hq (hp ▸ List.mem_append_right s (mem_of_prefix_head hpre ht0 hb2))
  · exact hq (hp ▸ List.mem_append_left t (mem_of_suffix_getLast hsuf hs0 ha2))

/-- A pattern with no white space in it cannot occur in white-space padding
around a middle that does not contain it. -/
theorem not_sub_space_pad {p w1 mid w2 : List Char} (hp0 : p ≠ [])
    (hp : ∀ c ∈ p, isGoSpace c = false)
    (hw1 : ∀ c ∈ w1, isGoSpace c = true) (hw2 : ∀ c ∈ w2, isGoSpace c = true)
    (hmid : ¬ p <:+: mid) : ¬ p <:+: w1 ++ (mid ++ w2) := by
  intro h
  rcases sub_append_split h with h1 | h1 | ⟨s, t, hpe, hs0, _, hsuf, _⟩
  · obtain ⟨c, hc⟩ := List.exists_mem_of_ne_nil p hp0
    have := hw1 c (h1.subset hc)
    rw [hp c hc] at this
    exact Bool.false_ne_true this
  · rcases sub_append_split h1 with h2 | h2 | ⟨s, t, hpe, _, ht0, _, hpre⟩
    · exact hmid h2
    · obtain ⟨c, hc⟩ := List.exists_mem_of_ne_nil p hp0
      have := hw2 c (h2.subset hc)
      rw [hp c hc] at this
      exact Bool.false_ne_true this
    · obtain ⟨c, hc⟩ := List.exists_mem_of_ne_nil t ht0
      have hcw : c ∈ w2 := hpre.subset hc
      have hcp : c ∈ p := hpe ▸ List.mem_append_right s hc
      have := hw2 c hcw
      rw [hp c hcp] at this
      exact Bool.false_ne_true this
  · obtain ⟨c, hc⟩ := List.exists_mem_of_ne_nil s hs0
    have hcw : c ∈ w1 := hsuf.subset hc
    have hcp : c ∈ p := hpe ▸ List.mem_append_left t hc
    have := hw1 c hcw
    rw [hp c hcp] at this
    exact Bool.false_ne_true this

/-! ### Behaviour of the string primitives -/

theorem replaceFirst_no_occ {old new s : List Char} (h : ¬ old <:+: s) :
    replaceFirst old new s = s := by
  induction s with
  | nil => rfl
  | cons c cs ih =>
    have h1 : ¬ (old ≠ [] ∧ old <+: (c :: cs)) := fun hc => h hc.2.isInfix
    have h2 : ¬ old <:+: cs := fun hc => h (List.infix_cons hc)
    rw [replaceFirst, if_neg h1, ih h2]

theorem replaceAll_no_occ {old new s : List Char} (h : ¬ old <:+: s) :
    replaceAll old new s = s := by
  induction s with
  | nil => rfl
  | cons c cs ih =>
    have h1 : ¬ (old ≠ [] ∧ old <+: (c :: cs)) := fun hc => h hc.2.isInfix
    have h2 : ¬ old <:+: cs := fun hc => h (List.infix_cons hc)
    rw [replaceAll_cons, if_neg h1, ih h2]

theorem emptyElemMatchLen_pos {l : List Char} (h : 0 < emptyElemMatchLen l) :
    ['>', '<', '/'] <+: l := by
  by_contra hq
  rw [emptyElemMatchLen, if_neg hq] at h
  exact Nat.lt_irrefl 0 h

theorem emptyElemMatchLen_ne_gt {c : Char} {l : List Char} (hc : c ≠ '>') :
    emptyElemMatchLen (c :: l) = 0 := by
  have hq : ¬ ['>', '<', '/'] <+: c :: l := by
    intro hq
    obtain ⟨t, ht⟩ := hq
    simp only [List.cons_append, List.nil_append] at ht
    injection ht with h1 _
    exact hc h1.symm
  rw [emptyElemMatchLen, if_neg hq]

theorem emptyElemMatchLen_start (name post : List Char) (h0 : name ≠ [])
    (h1 : ∀ c ∈ name, isAsciiAlpha c = true) :
    emptyElemMatchLen ('>' :: '<' :: '/' :: (name ++ '>' :: post)) = name.length + 4 := by
  have hdrop : (('>' : Char) :: '<' :: '/' :: (name ++ '>' :: post)).drop 3 =
      name ++ '>' :: post := rfl
  have htw : (name ++ '>' :: post).takeWhile isAsciiAlpha = name := by
    rw [List.takeWhile_append_of_pos h1, List.takeWhile_cons_of_neg (by decide), List.append_nil]
  have hdw : (name ++ '>' :: post).dropWhile isAsciiAlpha = '>' :: post := by
    rw [List.dropWhile_append_of_pos h1, List.dropWhile_cons_of_neg (by decide)]
  rw [emptyElemMatchLen, if_pos ⟨name ++ '>' :: post, rfl⟩, hdrop, htw, hdw,
    if_pos ⟨h0, rfl⟩]

theorem emptyElemReplace_no_occ {s : List Char} (h : ¬ ['>', '<', '/'] <:+: s) :
    emptyElemReplace s = s := by
  induction s with
  | nil => rfl
  | cons c cs ih =>
    have h1 : ¬ 0 < emptyElemMatchLen (c :: cs) :=
      fun hp => h (emptyElemMatchLen_pos hp).isInfix
    have h2 : ¬ ['>', '<', '/'] <:+: cs := fun hc => h (List.infix_cons hc)
    rw [emptyElemReplace_cons, if_neg h1, ih h2]

theorem emptyElemReplace_no_match {s : List Char} (h : hasEmptyElem s = false) :
    emptyElemReplace s = s := by
  induction s with
  | nil => rfl
  | cons c cs ih =>
    rw [hasEmptyElem, Bool.or_eq_false_iff] at h
    obtain ⟨ha, hb⟩ := h
    rw [bne_eq_false_iff_eq] at ha
    have h1 : ¬ 0 < emptyElemMatchLen (c :: cs) := by omega
    rw [emptyElemReplace_cons, if_neg h1, ih hb]

theorem emptyElemReplace_append_left {xs ys : List Char} (h : ∀ c ∈ xs, c ≠ '>') :
    emptyElemReplace (xs ++ ys) = xs ++ emptyElemReplace ys := by
  induction xs with
  | nil => simp
  | cons c cs ih =>
    have hm : emptyElemMatchLen (c :: (cs ++ ys)) = 0 :=
      emptyElemMatchLen_ne_gt (h c (List.mem_cons_self c cs))
    rw [List.cons_append, emptyElemReplace_cons, if_neg (by omega),
      ih (fun a ha => h a (List.mem_cons_of_mem c ha)), List.cons_append]

theorem emptyElemReplace_start {name post : List Char} (h0 : name ≠ [])
    (h1 : ∀ c ∈ name, isAsciiAlpha c = true) :
    emptyElemReplace ('>' :: '<' :: '/' :: (name ++ '>' :: post)) =
      '/' :: '>' :: emptyElemReplace post := by
  have hm := emptyElemMatchLen_start name post h0 h1
  have hdrop : (('>' : Char) :: '<' :: '/' :: (name ++ '>' :: post)).drop (name.length + 4) =
      post := by
    show (name ++ '>' :: post).drop (name.length + 1) = post
    rw [show name ++ '>' :: post = (name ++ ['>']) ++ post by simp, List.drop_left' (by simp)]
  rw [emptyElemReplace_cons, if_pos (by omega), hm, hdrop]

theorem trimSpace_decomp (l : List Char) :
    ∃ w1 w2, l = w1 ++ (trimSpace l ++ w2) ∧
      (∀ c ∈ w1, isGoSpace c = true) ∧ (∀ c ∈ w2, isGoSpace c = true) := by
  refine ⟨l.takeWhile isGoSpace,
    ((l.dropWhile isGoSpace).reverse.takeWhile isGoSpace).reverse, ?_, ?_, ?_⟩
  · conv_lhs => rw [← List.takeWhile_append_dropWhile isGoSpace l]
    congr 1
    conv_lhs => rw [← List.reverse_reverse (l.dropWhile isGoSpace),
      ← List.takeWhile_append_dropWhile isGoSpace (l.dropWhile isGoSpace).reverse]
    rw [List.reverse_append]
    rfl
  · exact fun c hc => List.mem_takeWhile_imp hc
  · exact fun c hc => List.mem_takeWhile_imp (List.mem_reverse.mp hc)

theorem trimSpace_of_ends {c d : Char} {mid : List Char}
    (hc : isGoSpace c = false) (hd : isGoSpace d = false) :
    trimSpace (c :: (mid ++ [d])) = c :: (mid ++ [d]) := by
  unfold trimSpace
  rw [List.dropWhile_cons_of_neg (by simp [hc])]
  have hrev : (c :: (mid ++ [d])).reverse = d :: (mid.reverse ++ [c]) := by
    simp
  rw [hrev, List.dropWhile_cons_of_neg (by simp [hd]), ← hrev, List.reverse_reverse]

theorem linesKeepNl_single {x : List Char} (h0 : x ≠ []) (h : '\n' ∉ x) :
    linesKeepNl x = [x] := by
  induction x with
  | nil => exact absurd rfl h0
  | cons c cs ih =>
    have hc : ¬ (c == '\n') = true := by
      simp only [beq_iff_eq]
      exact fun hq => h (by rw [hq]; exact List.mem_cons_self _ _)
    rw [linesKeepNl, if_neg hc]
    rcases eq_or_ne cs [] with rfl | hcs
    · rw [linesKeepNl]
    · rw [ih hcs (fun hm => h (List.mem_cons_of_mem c hm))]

theorem afterFirst_at_start {pat rest : List Char} (hp : pat ≠ []) :
    afterFirst pat (pat ++ rest) = some rest := by
  obtain ⟨a, as, rfl⟩ := List.exists_cons_of_ne_nil hp
  show afterFirst (a :: as) (a :: (as ++ rest)) = some rest
  rw [afterFirst, if_pos (by rw [← List.cons_append]; exact List.prefix_append _ _)]
  rw [← List.cons_append, List.drop_left]

theorem sub_take_of_prefix_append {pat zs ys : List Char} (hz : zs ≠ [])
    (h : pat <+: zs ++ ys) : pat <:+: zs ++ ys.take (pat.length - 1) := by
  rcases le_or_lt pat.length zs.length with hle | hlt
  · have hpz : pat <+: zs := (List.isPrefix_append_of_length hle).mp h
    exact hpz.isInfix.trans (List.prefix_append _ _).isInfix
  · have hq := List.prefix_iff_eq_take.mp h
    rw [List.take_append_eq_append_take, List.take_of_length_le (Nat.le_of_lt hlt)] at hq
    have hzlen : 1 ≤ zs.length := List.length_pos.mpr hz
    have htp : ys.take (pat.length - zs.length) <+: ys.take (pat.length - 1) :=
      List.take_prefix_take_left ys (by omega)
    have : pat <+: zs ++ ys.take (pat.length - 1) := by
      nth_rewrite 1 [hq]
      exact (List.prefix_append_right_inj zs).mpr htp
    exact this.isInfix

theorem afterFirst_append_skip {pat xs ys : List Char}
    (h : ¬ pat <:+: xs ++ ys.take (pat.length - 1)) :
    afterFirst pat (xs ++ ys) = afterFirst pat ys := by
  induction xs with
  | nil => rw [List.nil_append]
  | cons c cs ih =>
    have hpre : ¬ pat <+: c :: (cs ++ ys) := by
      intro hq
      exact h (by
        rw [List.cons_append]
        exact sub_take_of_prefix_append (List.cons_ne_nil c cs)
          (by rw [List.cons_append]; exact hq))
    rw [List.cons_append, afterFirst, if_neg hpre,
      ih (fun hq => h (List.infix_cons hq))]

/-- On a line free of occurrences of `cenc`, `mspr`, the `<pssh`, `<pro` triggers
and `default_KID`, already fixed by the empty-element collapse, the rewrite loop
only performs the empty-timeline suppression. -/
theorem rewriteLine_plain {l : List Char}
    (hre : emptyElemReplace l = l)
    (hcenc : ¬ "cenc".toList <:+: l) (hmspr : ¬ "mspr".toList <:+: l)
    (hpssh : ¬ "<pssh".toList <:+: l) (hpro : ¬ "<pro".toList <:+: l)
    (hkid : ¬ "default_KID".toList <:+: l) :
    rewriteLine l = if trimSpace l = "<SegmentTimeline/>".toList then [] else l := by
  simp only [rewriteLine]
  rw [hre]
  have h2 : (if "<MPD".toList <:+: l then
      replaceFirst "mspr".toList "xmlns:mspr".toList
        (replaceFirst "cenc".toList "xmlns:cenc".toList l)
    else l) = l := by
    rcases Decidable.em ("<MPD".toList <:+: l) with hm | hm
    · rw [if_pos hm, replaceFirst_no_occ hcenc, replaceFirst_no_occ hmspr]
    · rw [if_neg hm]
  rw [h2, if_neg hpssh, if_neg hpro, if_neg hkid]

/-- On a line containing none of the four `strings.Contains` triggers and no
regular-expression match, the rewrite loop only performs the empty-timeline
suppression. -/
theorem rewriteLine_no_triggers {l : List Char}
    (hre : emptyElemReplace l = l)
    (hmpd : ¬ "<MPD".toList <:+: l) (hpssh : ¬ "<pssh".toList <:+: l)
    (hpro : ¬ "<pro".toList <:+: l) (hkid : ¬ "default_KID".toList <:+: l) :
    rewriteLine l = if trimSpace l = "<SegmentTimeline/>".toList then [] else l := by
  simp only [rewriteLine]
  rw [hre, if_neg hmpd, if_neg hpssh, if_neg hpro, if_neg hkid]

/-! ### Claims about `ConditionalUint` -/

/-- Claim C2: `ConditionalUint` text round-trip at the claimed inputs.  Encoding
the integer variant 42 yields `"42"`; decoding `"42"` into a zero value yields
the integer variant 42 and leaves the boolean variant unset; encoding the boolean
variant `true` yields `"true"`; decoding `"true"` yields the boolean variant; and
decoding `"abc"` fails with the `MalformedUnion` error carrying the attribute.
The unsigned parse is attempted before the boolean parse, as witnessed by `"42"`
landing in the integer variant. -/
theorem C2_conditional_uint_text :
    ConditionalUint.marshalXMLAttr ⟨some 42, none⟩ "segmentAlignment".toList =
        some ⟨"segmentAlignment".toList, "42".toList⟩ ∧
      ConditionalUint.unmarshalXMLAttr ⟨none, none⟩ ⟨"segmentAlignment".toList, "42".toList⟩ =
        .ok ⟨some 42, none⟩ ∧
      ConditionalUint.marshalXMLAttr ⟨none, some true⟩ "segmentAlignment".toList =
        some ⟨"segmentAlignment".toList, "true".toList⟩ ∧
      ConditionalUint.unmarshalXMLAttr ⟨none, none⟩ ⟨"segmentAlignment".toList, "true".toList⟩ =
        .ok ⟨none, some true⟩ ∧
      ConditionalUint.unmarshalXMLAttr ⟨none, none⟩ ⟨"segmentAlignment".toList, "abc".toList⟩ =
        .error ⟨⟨"segmentAlignment".toList, "abc".toList⟩⟩ :=
  ⟨rfl, rfl, rfl, rfl, rfl⟩

/-- Claim C5, counterexample: the claim says decode succeeds with the boolean
variant whenever the text is not an unsigned integer but equals `"true"`
case-insensitively.  `"TRue"` is case-insensitively equal to `"true"` and is not
an unsigned integer, yet decode fails: Go `strconv.ParseBool` accepts only the
exact strings 1, t, T, TRUE, true, True, 0, f, F, FALSE, false, False. -/
theorem C5_counterexample :
    "TRue".toList.map asciiLower = "true".toList ∧
      parseUint64 "TRue".toList = none ∧
      ConditionalUint.unmarshalXMLAttr ⟨none, none⟩
          ⟨"segmentAlignment".toList, "TRue".toList⟩ =
        .error ⟨⟨"segmentAlignment".toList, "TRue".toList⟩⟩ :=
  ⟨by decide, rfl, rfl⟩

/-- Claim C5, amended: decoding an attribute into a zero `ConditionalUint` stores
the integer variant when the text parses as an unsigned 64-bit decimal; otherwise
it stores the boolean variant exactly when the text is one of Go `ParseBool`'s
twelve literals (1/t/T/TRUE/true/True and 0/f/F/FALSE/false/False, not arbitrary
case-insensitive spellings); otherwise it fails with a `MalformedUnion` error
carrying the attribute name and the raw text. -/
theorem C5_union_decode_exact (nm v : List Char) :
    (∀ u, parseUint64 v = some u →
      ConditionalUint.unmarshalXMLAttr ⟨none, none⟩ ⟨nm, v⟩ = .ok ⟨some u, none⟩) ∧
    (parseUint64 v = none → v ∈ goTrueLits →
      ConditionalUint.unmarshalXMLAttr ⟨none, none⟩ ⟨nm, v⟩ = .ok ⟨none, some true⟩) ∧
    (parseUint64 v = none → v ∉ goTrueLits → v ∈ goFalseLits →
      ConditionalUint.unmarshalXMLAttr ⟨none, none⟩ ⟨nm, v⟩ = .ok ⟨none, some false⟩) ∧
    (parseUint64 v = none → v ∉ goTrueLits → v ∉ goFalseLits →
      ConditionalUint.unmarshalXMLAttr ⟨none, none⟩ ⟨nm, v⟩ = .error ⟨⟨nm, v⟩⟩) := by
  refine ⟨?_, ?_, ?_, ?_⟩
  · intro u hu
    simp [ConditionalUint.unmarshalXMLAttr, hu]
  · intro hu ht
    simp [ConditionalUint.unmarshalXMLAttr, hu, parseBool, ht]
  · intro hu ht hf
    simp [ConditionalUint.unmarshalXMLAttr, hu, parseBool, ht, hf]
  · intro hu ht hf
    simp [ConditionalUint.unmarshalXMLAttr, hu, parseBool, ht, hf]

/-- Claim C5, witness for the amended theorem at concrete inputs. -/
theorem C5_witness :
    ConditionalUint.unmarshalXMLAttr ⟨none, none⟩ ⟨"id".toList, "xyz".toList⟩ =
      .error ⟨⟨"id".toList, "xyz".toList⟩⟩ :=
  (C5_union_decode_exact "id".toList "xyz".toList).2.2.2 rfl (by decide) (by decide)

/-- Claim C9: a `ConditionalUint` never holds both variants at once: the empty
value, a value constructed from either single variant, and any result of decoding
an attribute into a zero value all have at most one variant set. -/
theorem C9_at_most_one_variant :
    atMostOneVariant ⟨none, none⟩ ∧
      (∀ u, atMostOneVariant ⟨some u, none⟩) ∧
      (∀ b, atMostOneVariant ⟨none, some b⟩) ∧
      (∀ (nm v : List Char) (c' : ConditionalUint),
        ConditionalUint.unmarshalXMLAttr ⟨none, none⟩ ⟨nm, v⟩ = .ok c' →
        atMostOneVariant c') := by
  refine ⟨Or.inl rfl, fun u => Or.inr rfl, fun b => Or.inl rfl, ?_⟩
  intro nm v c' h
  rw [ConditionalUint.unmarshalXMLAttr] at h
  rcases hu : parseUint64 v with _ | u
  · rcases hb : parseBool v with _ | b
    · rw [hu, hb] at h
      simp at h
    · rw [hu, hb] at h
      simp only [Except.ok.injEq] at h
      rw [← h]
      exact Or.inl rfl
  · rw [hu] at h
    simp only [Except.ok.injEq] at h
    rw [← h]
    exact Or.inr rfl

/-- Claim C9, witness at concrete inputs. -/
theorem C9_witness :
    atMostOneVariant ⟨some 1, none⟩ ∧ atMostOneVariant ⟨some 42, none⟩ :=
  ⟨C9_at_most_one_variant.2.1 1,
   C9_at_most_one_variant.2.2.2 "a".toList "42".toList ⟨some 42, none⟩ rfl⟩

/-! ### Claims about the rewrite pass -/

/-- Claim C4, counterexample: on a line holding two occurrences of
`default_KID`, rule 5 rewrites both (the code uses `strings.Replace(..., -1)`),
while the claim predicts that only the first occurrence is rewritten. -/
theorem C4_counterexample :
    rewriteLine "default_KID default_KID\n".toList =
        "cenc:default_KID cenc:default_KID\n".toList ∧
      rewriteLine "default_KID default_KID\n".toList ≠
        "cenc:default_KID default_KID\n".toList := by decide

/-- Claim C4, amended: only rule 2's two replacements and the namespace-declaration
replacements inside rules 3 and 4 (`cenc` to `xmlns:cenc`, `mspr` to `xmlns:mspr`)
are first-occurrence-only; the element-name replacements of rules 3 and 4
(`pssh` to `cenc:pssh`, `pro` to `mspr:pro`) and both replacements of rule 5
(`default_KID` to `cenc:default_KID`, `cenc=` to `xmlns:cenc=`) rewrite every
occurrence on the line. -/
theorem C4_replacement_multiplicities :
    rewriteLine "<MPD cenc cenc mspr mspr\n".toList =
        "<MPD xmlns:cenc cenc xmlns:mspr mspr\n".toList ∧
      rewriteLine "<pssh cenc cenc\n".toList = "<cenc:pssh xmlns:cenc cenc\n".toList ∧
      rewriteLine "<pssh pssh\n".toList = "<cenc:pssh cenc:pssh\n".toList ∧
      rewriteLine "<pro mspr mspr\n".toList = "<mspr:pro xmlns:mspr mspr\n".toList ∧
      rewriteLine "<pro pro\n".toList = "<mspr:pro mspr:pro\n".toList ∧
      rewriteLine "default_KID default_KID\n".toList =
        "cenc:default_KID cenc:default_KID\n".toList ∧
      rewriteLine "default_KID cenc= cenc=\n".toList =
        "cenc:default_KID xmlns:cenc= xmlns:cenc=\n".toList := by decide

/-- Claim C6, counterexample: the empty-element collapse does not check that the
close tag matches the preceding open tag: `<Foo></Bar>` is collapsed to `<Foo/>`,
contradicting the claim that only close tags of the same name are collapsed. -/
theorem C6_counterexample :
    rewriteLine "<Foo></Bar>\n".toList = "<Foo/>\n".toList ∧
      rewriteLine "<Foo></Bar>\n".toList ≠ "<Foo></Bar>\n".toList := by decide

/-- Claim C6, amended: every occurrence of `></`, one or more ASCII letters and
`>` is rewritten to `/>`, regardless of whether the close-tag name matches the
preceding open tag (and a close tag whose name is not all ASCII letters, such as
`h1`, is not collapsed); in particular a childless Representation line collapses
to the self-closing form. -/
theorem C6_empty_element_collapse :
    (∀ pre name post : List Char, (∀ c ∈ pre, c ≠ '>') → name ≠ [] →
      (∀ c ∈ name, isAsciiAlpha c = true) →
      emptyElemReplace (pre ++ '>' :: '<' :: '/' :: (name ++ '>' :: post)) =
        pre ++ '/' :: '>' :: emptyElemReplace post) ∧
    rewriteLine "    <Representation id=\"1\" bandwidth=\"500000\"></Representation>\n".toList =
      "    <Representation id=\"1\" bandwidth=\"500000\"/>\n".toList ∧
    rewriteLine "<h1></h1>\n".toList = "<h1></h1>\n".toList := by
  refine ⟨?_, by decide, by decide⟩
  intro pre name post hpre h0 h1
  rw [emptyElemReplace_append_left hpre, emptyElemReplace_start h0 h1]

/-- Claim C6, witness for the universally quantified part of the amended
theorem, at a concrete prefix, tag name and remainder. -/
theorem C6_witness :
    emptyElemReplace ("<Abc".toList ++ '>' :: '<' :: '/' :: ("Def".toList ++ '>' :: [])) =
      "<Abc".toList ++ '/' :: '>' :: emptyElemReplace [] :=
  C6_empty_element_collapse.1 "<Abc".toList "Def".toList []
    (by decide) (by decide) (by decide)

/-- Claim C8: a line with no empty-element match, none of the four substring
triggers `<MPD`, `<pssh`, `<pro`, `default_KID`, and whose trimmed content is not
the self-closed empty-timeline tag passes through the rewrite loop unchanged. -/
theorem C8_frame (l : List Char) (h1 : hasEmptyElem l = false)
    (h2 : ¬ "<MPD".toList <:+: l) (h3 : ¬ "<pssh".toList <:+: l)
    (h4 : ¬ "<pro".toList <:+: l) (h5 : ¬ "default_KID".toList <:+: l)
    (h6 : trimSpace l ≠ "<SegmentTimeline/>".toList) :
    rewriteLine l = l := by
  rw [rewriteLine_no_triggers (emptyElemReplace_no_match h1) h2 h3 h4 h5, if_neg h6]

/-- Claim C8, witness at a concrete line. -/
theorem C8_witness :
    rewriteLine "  <Period id=\"1\">\n".toList = "  <Period id=\"1\">\n".toList :=
  C8_frame "  <Period id=\"1\">\n".toList
    (by decide) (by decide) (by decide) (by decide) (by decide) (by decide)

/-- Claim C3, counterexample: on the generic serializer's output for a root
document whose cenc marker attribute is set (modelled from the spec by
`marshalRoot`), the rewrite pass is not idempotent: the first application turns
`cenc=` into `xmlns:cenc=`; the second finds the bare substring `cenc` inside
`xmlns:cenc` again and produces `xmlns:xmlns:cenc=`. -/
theorem C3_counterexample :
    rewriteBody (rewriteBody (marshalRoot ⟨some "v".toList, "p".toList⟩)) ≠
      rewriteBody (marshalRoot ⟨some "v".toList, "p".toList⟩) := by decide

/-- Claim C3, amended: the rewrite pass is not idempotent on all encoder outputs
(see the counterexample); per line, it is idempotent on lines containing none of
the substrings `></`, `cenc`, `mspr`, `pssh`, `pro`, `default_KID`. -/
theorem C3_idempotent_marker_free (l : List Char)
    (h0 : ¬ ['>', '<', '/'] <:+: l)
    (h1 : ¬ "cenc".toList <:+: l) (h2 : ¬ "mspr".toList <:+: l)
    (h3 : ¬ "pssh".toList <:+: l) (h4 : ¬ "pro".toList <:+: l)
    (h5 : ¬ "default_KID".toList <:+: l) :
    rewriteLine (rewriteLine l) = rewriteLine l := by
  have hps : ¬ "<pssh".toList <:+: l :=
    fun hq => h3 ((by decide : "pssh".toList <:+: "<pssh".toList).trans hq)
  have hpr : ¬ "<pro".toList <:+: l :=
    fun hq => h4 ((by decide : "pro".toList <:+: "<pro".toList).trans hq)
  have hmain := rewriteLine_plain (emptyElemReplace_no_occ h0) h1 h2 hps hpr h5
  rw [hmain]
  rcases Decidable.em (trimSpace l = "<SegmentTimeline/>".toList) with ht | ht
  · rw [if_pos ht]
    decide
  · rw [if_neg ht, hmain, if_neg ht]

/-- Claim C3, witness for the amended theorem at a concrete line. -/
theorem C3_witness :
    rewriteLine (rewriteLine "  <S t=\"0\" d=\"100\"/\n".toList) =
      rewriteLine "  <S t=\"0\" d=\"100\"/\n".toList :=
  C3_idempotent_marker_free "  <S t=\"0\" d=\"100\"/\n".toList
    (by decide) (by decide) (by decide) (by decide) (by decide) (by decide)

set_option maxRecDepth 40000 in
/-- Claim C7: any line whose trimmed content is exactly `<SegmentTimeline/>` is
dropped by the rewrite loop, and (on the spec-modelled serializer output for a
document whose SegmentTemplate holds a SegmentTimeline with zero segments) the
encoded document contains no `SegmentTimeline` text at all. -/
theorem C7_empty_timeline_suppressed :
    (∀ l : List Char, trimSpace l = "<SegmentTimeline/>".toList → rewriteLine l = []) ∧
      ¬ "SegmentTimeline".toList <:+: mpdEncode emptyTimelineAdapterOut := by
  constructor
  · intro l hl
    obtain ⟨w1, w2, hdecomp, hw1, hw2⟩ := trimSpace_decomp l
    rw [hl] at hdecomp
    have hre : emptyElemReplace l = l := by
      apply emptyElemReplace_no_occ
      rw [hdecomp]
      exact not_sub_space_pad (by decide) (by decide) hw1 hw2 (by decide)
    have hpat : ∀ p : List Char, p ≠ [] → (∀ c ∈ p, isGoSpace c = false) →
        ¬ p <:+: "<SegmentTimeline/>".toList → ¬ p <:+: l := by
      intro p hp0 hp hmid
      rw [hdecomp]
      exact not_sub_space_pad hp0 hp hw1 hw2 hmid
    rw [rewriteLine_plain hre
        (hpat _ (by decide) (by decide) (by decide))
        (hpat _ (by decide) (by decide) (by decide))
        (hpat _ (by decide) (by decide) (by decide))
        (hpat _ (by decide) (by decide) (by decide))
        (hpat _ (by decide) (by decide) (by decide)),
      if_pos hl]
  · decide

/-- Claim C7, witness for the universally quantified part at a concrete line. -/
theorem C7_witness :
    rewriteLine "    <SegmentTimeline/>  \n".toList = [] :=
  C7_empty_timeline_suppressed.1 "    <SegmentTimeline/>  \n".toList (by decide)

/-- Claim C10: for a Document whose Cenc marker attribute is absent but whose
Profiles string contains the bare substring `cenc` (serializer modelled from the
spec by `marshalRoot`), Encode rewrites that occurrence inside the profiles
attribute value to `xmlns:cenc`, so the emitted value differs from the stored
field value. -/
theorem C10_bare_marker_corrupts_profiles :
    decodeProfiles (mpdEncode (marshalRoot ⟨none, "urn:mpeg:cenc:2013".toList⟩)) =
        some "urn:mpeg:xmlns:cenc:2013".toList ∧
      some "urn:mpeg:xmlns:cenc:2013".toList ≠
        some ("urn:mpeg:cenc:2013".toList) := by decide

/-- Claim C1, counterexample: a Document whose profile string is the single word
`cenc` (with the cenc marker attribute absent) does not round-trip: Encode
rewrites the attribute value to `xmlns:cenc`, so decoding Encode's output
(decode modelled from the spec by `decodeProfiles`) yields a different profiles
value than the one stored in the document. -/
theorem C1_counterexample :
    decodeProfiles (mpdEncode (marshalRoot ⟨none, "cenc".toList⟩)) =
        some "xmlns:cenc".toList ∧
      some "xmlns:cenc".toList ≠ some ("cenc".toList) := by decide

/-- Claim C1, amended: the full encode/decode round-trip fails when a field
value contains a marker substring of the rewrite pass (see the counterexample);
it holds for root documents without the cenc/mspr marker attributes whose
profile value contains no XML-special character, no newline, and none of the
marker substrings `cenc`, `mspr`, `default_KID`: for all such profile values
the profiles attribute decoded from Encode's output equals the stored value. -/
theorem C1_roundtrip_restricted (v : List Char)
    (hchars : ∀ c ∈ v, c ≠ '<' ∧ c ≠ '>' ∧ c ≠ '"' ∧ c ≠ '&' ∧ c ≠ '\n')
    (hcenc : ¬ "cenc".toList <:+: v) (hmspr : ¬ "mspr".toList <:+: v)
    (hkid : ¬ "default_KID".toList <:+: v) :
    decodeProfiles (mpdEncode (marshalRoot ⟨none, v⟩)) = some v := by
  have hser : marshalRoot ⟨none, v⟩ =
      "<MPD profiles=\"".toList ++ (v ++ "\"></MPD>".toList) := by
    show "<MPD ".toList ++ [] ++ "profiles=\"".toList ++ v ++ "\"></MPD>".toList = _
    rw [List.append_nil,
      show "<MPD ".toList ++ "profiles=\"".toList = "<MPD profiles=\"".toList from rfl,
      List.append_assoc]
  have hA : ∀ c ∈ "<MPD profiles=\"".toList, c ≠ '>' := by decide
  have hxs : ∀ c ∈ ("<MPD profiles=\"".toList ++ (v ++ ['"'])), c ≠ '>' := by
    intro c hc
    rcases List.mem_append.mp hc with h | h
    · exact hA c h
    · rcases List.mem_append.mp h with h | h
      · exact (hchars c h).2.1
      · simp only [List.mem_singleton] at h
        subst h
        decide
  have hre : emptyElemReplace ("<MPD profiles=\"".toList ++ (v ++ "\"></MPD>".toList)) =
      "<MPD profiles=\"".toList ++ (v ++ "\"/>".toList) := by
    rw [show "\"></MPD>".toList = ['"'] ++ "></MPD>".toList from rfl,
      show "\"/>".toList = ['"'] ++ "/>".toList from rfl,
      ← List.append_assoc, ← List.append_assoc, ← List.append_assoc, ← List.append_assoc,
      List.append_assoc "<MPD profiles=\"".toList v ['"'],
      emptyElemReplace_append_left hxs,
      show emptyElemReplace "></MPD>".toList = "/>".toList by decide,
      List.append_assoc, List.append_assoc]
  have hbar : ∀ p : List Char, '"' ∉ p → ¬ p <:+: "<MPD profiles=\"".toList →
      ¬ p <:+: v → ¬ p <:+: "\"/>".toList →
      ¬ p <:+: "<MPD profiles=\"".toList ++ (v ++ "\"/>".toList) := by
    intro p hq hpa hpv hpb
    exact not_sub_barrier hq (by decide) (by decide) hpa hpv hpb
  have hnc : ¬ "cenc".toList <:+: "<MPD profiles=\"".toList ++ (v ++ "\"/>".toList) :=
    hbar _ (by decide) (by decide) hcenc (by decide)
  have hnm : ¬ "mspr".toList <:+: "<MPD profiles=\"".toList ++ (v ++ "\"/>".toList) :=
    hbar _ (by decide) (by decide) hmspr (by decide)
  have hnkid : ¬ "default_KID".toList <:+: "<MPD profiles=\"".toList ++ (v ++ "\"/>".toList) :=
    hbar _ (by decide) (by decide) hkid (by decide)
  have hps : ¬ "<pssh".toList <:+: "<MPD profiles=\"".toList ++ (v ++ "\"/>".toList) :=
    hbar _ (by decide) (by decide)
      (not_sub_of_missing_char (show '<' ∈ "<pssh".toList by decide)
        (fun hm => (hchars '<' hm).1 rfl)) (by decide)
  have hpr : ¬ "<pro".toList <:+: "<MPD profiles=\"".toList ++ (v ++ "\"/>".toList) :=
    hbar _ (by decide) (by decide)
      (not_sub_of_missing_char (show '<' ∈ "<pro".toList by decide)
        (fun hm => (hchars '<' hm).1 rfl)) (by decide)
  have hMPD : "<MPD".toList <:+: "<MPD profiles=\"".toList ++ (v ++ "\"/>".toList) := by
    rw [show "<MPD profiles=\"".toList = "<MPD".toList ++ " profiles=\"".toList from rfl,
      List.append_assoc]
    exact (List.prefix_append _ _).isInfix
  have htrim : trimSpace ("<MPD profiles=\"".toList ++ (v ++ "\"/>".toList)) =
      "<MPD profiles=\"".toList ++ (v ++ "\"/>".toList) := by
    rw [show "<MPD profiles=\"".toList ++ (v ++ "\"/>".toList) =
        '<' :: (("MPD profiles=\"".toList ++ (v ++ "\"/".toList)) ++ ['>']) by
      rw [show "<MPD profiles=\"".toList = '<' :: "MPD profiles=\"".toList from rfl,
        show "\"/>".toList = "\"/".toList ++ ['>'] from rfl]
      simp [List.append_assoc]]
    rw [trimSpace_of_ends (by decide) (by decide)]
  have hne : "<MPD profiles=\"".toList ++ (v ++ "\"/>".toList) ≠
      "<SegmentTimeline/>".toList := by
    intro h
    have h2 := congrArg (List.take 2) h
    rw [List.take_append_of_le_length (by decide)] at h2
    exact absurd h2 (by decide)
  have hline : rewriteLine ("<MPD profiles=\"".toList ++ (v ++ "\"></MPD>".toList)) =
      "<MPD profiles=\"".toList ++ (v ++ "\"/>".toList) := by
    simp only [rewriteLine]
    rw [hre, if_pos hMPD, replaceFirst_no_occ hnc, replaceFirst_no_occ hnm,
      if_neg hps, if_neg hpr, if_neg hnkid, if_neg (show ¬ _ = _ by rw [htrim]; exact hne)]
  have hnl : '\n' ∉ marshalRoot ⟨none, v⟩ := by
    rw [hser]
    intro hm
    rcases List.mem_append.mp hm with h | h
    · revert h
      decide
    · rcases List.mem_append.mp h with h | h
      · exact (hchars _ h).2.2.2.2 rfl
      · revert h
        decide
  have hne0 : marshalRoot ⟨none, v⟩ ≠ [] := by
    rw [hser]
    intro h
    rcases List.append_eq_nil.mp h with ⟨h1, _⟩
    exact absurd h1 (by decide)
  have hbody : rewriteBody (marshalRoot ⟨none, v⟩) =
      "<MPD profiles=\"".toList ++ (v ++ "\"/>".toList) := by
    rw [rewriteBody, linesKeepNl_single hne0 hnl, List.map_cons, List.map_nil, hser, hline]
    simp
  have hx : mpdEncode (marshalRoot ⟨none, v⟩) =
      (xmlHeader ++ ['\n'] ++ "<MPD ".toList) ++
        ("profiles=\"".toList ++ (v ++ ("\"/>".toList ++ ['\n']))) := by
    rw [mpdEncode, hbody,
      show "<MPD profiles=\"".toList = "<MPD ".toList ++ "profiles=\"".toList from rfl]
    simp [List.append_assoc]
  have hvq : ∀ c ∈ v, ((c != '"') = true) := by
    intro c hc
    simp only [bne_iff_ne]
    exact (hchars c hc).2.2.1
  rw [decodeProfiles, hx,
    afterFirst_append_skip (by
      rw [List.take_append_of_le_length (by decide)]
      decide),
    afterFirst_at_start (by decide),
    show "\"/>".toList ++ ['\n'] = '"' :: ("/>".toList ++ ['\n']) from rfl]
  simp only [Option.map_some']
  rw [List.takeWhile_append_of_pos hvq, List.takeWhile_cons_of_neg (by decide),
    List.append_nil]

/-- Claim C1, witness for the amended round-trip theorem at a concrete marker-free
profile value. -/
theorem C1_witness :
    decodeProfiles (mpdEncode (marshalRoot ⟨none, "urn:mpeg:dash:profile".toList⟩)) =
      some "urn:mpeg:dash:profile".toList :=
  C1_roundtrip_restricted "urn:mpeg:dash:profile".toList
    (by decide) (by decide) (by decide) (by decide)
